import Mathlib

/-!
Shallow embedding of the sync-tasks app (`src/sync-manager.js`): the task and
device data model, the merge engine (`SyncManager.mergeData` /
`SyncManager.resolveConflict`), the device registry upsert
(`SyncManager.updateDevicesList`), the local store operations used by a sync
cycle (`TaskManager.getAllTasks`, `TaskManager.syncTasks`) and the sync
orchestrator (`SyncManager.syncWithGitHub`, `SyncManager.manualSync`).

Timestamps are modelled as integers (milliseconds since the epoch); an ISO
date string compares exactly as its millisecond value, so `new Date(x) >
new Date(y)` on valid dates is integer comparison.  A JS object field that
may be absent is an `Option`.  The remote store is an oracle: what
`githubConfig.getData()` returns and whether `githubConfig.saveData`
succeeds are inputs of the embedded cycle.  In-place mutation of an array
argument is made explicit by returning the array's post-call contents.
-/

namespace SyncSpec

/-- A task record as stored in the app's IndexedDB and in the remote JSON
blob.  `updatedAt` is the modification timestamp in milliseconds; it is
`none` when the JS object lacks the field. -/
structure Task where
  id : Nat
  title : String
  completed : Bool
  deleted : Bool
  updatedAt : Option Nat
  synced : Bool
deriving DecidableEq

/-- The timestamp that `new Date(task.updatedAt || 0)` denotes: a missing
`updatedAt` parses as the epoch (0). -/
def timeOf (t : Task) : Nat := t.updatedAt.getD 0

/-- `SyncManager.resolveConflict` (src/sync-manager.js:177): the record with
the strictly newer `updatedAt` wins; on an exact tie the local record wins. -/
def resolveConflict (localTask remoteTask : Task) : Task :=
  if timeOf remoteTask < timeOf localTask then localTask
  else if timeOf localTask < timeOf remoteTask then remoteTask
  else localTask

/-- One `Map.set` step of a JS `Map` (an association list kept in insertion
order): an existing key keeps its position and gets the new value; a fresh
key is appended at the end. -/
def mapSet (m : List (Nat × Task)) (k : Nat) (v : Task) : List (Nat × Task) :=
  if m.any (fun p => p.1 == k) then
    m.map (fun p => if p.1 == k then (k, v) else p)
  else m ++ [(k, v)]

/-- `new Map(tasks.map(t => [t.id, t]))` (src/sync-manager.js:151): on a
duplicated id the later record overwrites the value while the key keeps the
first occurrence's position. -/
def buildMap (tasks : List Task) : List (Nat × Task) :=
  tasks.foldl (fun m t => mapSet m t.id t) []

/-- `Map.prototype.get`. -/
def mapGet (m : List (Nat × Task)) (k : Nat) : Option Task :=
  (m.find? (fun p => p.1 == k)).map (fun p => p.2)

/-- `Map.prototype.keys()` in insertion order. -/
def mapKeys (m : List (Nat × Task)) : List Nat := m.map (fun p => p.1)

/-- Helper for `pwDedup`: drop the elements already seen, keeping first
occurrences in order. -/
def dedupGo (seen : List Nat) : List Nat → List Nat
  | [] => []
  | x :: xs => if x ∈ seen then dedupGo seen xs else x :: dedupGo (x :: seen) xs

/-- `new Set(list)` iterated in insertion order: the first occurrence of each
element, in order (src/sync-manager.js:155). -/
def pwDedup (l : List Nat) : List Nat := dedupGo [] l

/-- The sort comparator `(a, b) => new Date(b.updatedAt) - new Date(a.updatedAt)`
(src/sync-manager.js:174) read as an "`a` may stay before `b`" test:
timestamps descending; a missing `updatedAt` yields `NaN`, which
`Array.prototype.sort`'s SortCompare maps to `+0`, i.e. "equal". -/
def sortLe (a b : Task) : Bool :=
  match a.updatedAt, b.updatedAt with
  | some ta, some tb => tb ≤ ta
  | _, _ => true

/-- Stable insertion step of the sort model. -/
def insertTask (x : Task) : List Task → List Task
  | [] => [x]
  | y :: ys => if sortLe x y then x :: y :: ys else y :: insertTask x ys

/-- `mergedTasks.sort(...)`: `Array.prototype.sort` is a stable sort, modelled
as stable insertion sort with the comparator `sortLe`. -/
def sortTasks : List Task → List Task
  | [] => []
  | x :: xs => insertTask x (sortTasks xs)

/-- The per-id choice inside `SyncManager.mergeData`'s loop
(src/sync-manager.js:157): only-local keeps local, only-remote keeps remote,
both resolve the conflict. -/
def mergePick (localMap remoteMap : List (Nat × Task)) (id : Nat) : Option Task :=
  match mapGet localMap id, mapGet remoteMap id with
  | none, some remoteTask => some remoteTask
  | some localTask, none => some localTask
  | some localTask, some remoteTask => some (resolveConflict localTask remoteTask)
  | none, none => none

/-- `SyncManager.mergeData` (src/sync-manager.js:149): index both lists by id,
walk the union of ids (local keys first, then remote-only keys), pick per id,
and sort the result by `updatedAt` descending. -/
def mergeData (localTasks remoteTasks : List Task) : List Task :=
  let localMap := buildMap localTasks
  let remoteMap := buildMap remoteTasks
  let allIds := pwDedup (mapKeys localMap ++ mapKeys remoteMap)
  sortTasks (allIds.filterMap (mergePick localMap remoteMap))

/-- `TaskManager.getAllTasks` with the default filter `'all'`
(src/sync-manager.js, TaskManager): the IndexedDB contents with tombstoned
(`deleted`) tasks filtered out — this is the read that step 1 of
`syncWithGitHub` performs. -/
def getAllTasks (tasks : List Task) : List Task :=
  tasks.filter (fun t => !t.deleted)

/-- A device record of the remote document's registry. -/
structure Device where
  id : String
  name : String
  lastSeen : Int
  online : Bool
deriving DecidableEq

/-- `existingDevices[deviceIndex] = deviceInfo` where `deviceIndex` is the
first index whose id matches (`findIndex`). -/
def replaceFirst (info : Device) : List Device → List Device
  | [] => []
  | d :: ds => if d.id == info.id then info :: ds else d :: replaceFirst info ds

/-- `SyncManager.updateDevicesList` (src/sync-manager.js:192), with the
in-place mutation of `existingDevices` made explicit: the first component is
the state of the caller's array after the call (the upsert assigns into it or
pushes onto it), the second component is the value the function returns (a
fresh array built by `filter`).  `now` is the clock reading and `dayMs` the
length of one day in milliseconds, so `sevenDaysAgo` is `now - 7 * dayMs`. -/
def updateDevicesList (existingDevices : List Device) (selfId selfName : String)
    (online : Bool) (now dayMs : Int) : List Device × List Device :=
  let deviceInfo : Device := { id := selfId, name := selfName, lastSeen := now, online := online }
  let mutated :=
    if existingDevices.any (fun d => d.id == selfId) then replaceFirst deviceInfo existingDevices
    else existingDevices ++ [deviceInfo]
  let sevenDaysAgo := now - 7 * dayMs
  (mutated, mutated.filter (fun d => sevenDaysAgo < d.lastSeen))

/-- The remote JSON document, as far as a sync cycle reads it. -/
structure RemoteDoc where
  tasks : List Task
  devices : List Device
deriving DecidableEq

/-- One line of the sync log (`SyncManager.log(message, type)`). -/
structure LogEntry where
  message : String
  severity : String
deriving DecidableEq

/-- The sync session state a cycle can read or mutate: the local Task Store
contents, the persisted `lastSync` value, and the session flags. -/
structure SyncState where
  tasks : List Task
  lastSync : Option Int
  isSyncing : Bool
  isOnline : Bool
  configured : Bool
deriving DecidableEq

/-- The externally visible effects of a call: how many remote reads and
remote writes were performed, and the log lines emitted. -/
structure SyncEffects where
  remoteReads : Nat
  remoteWrites : Nat
  log : List LogEntry
deriving DecidableEq

/-- One iteration of the loop in `TaskManager.syncTasks`: a tombstone deletes
the record physically; an unknown id is inserted `synced`; a strictly newer
remote record overwrites the local one `synced`; otherwise nothing. -/
def applyRemoteTask (tasks : List Task) (remoteTask : Task) : List Task :=
  if remoteTask.deleted then
    tasks.filter (fun t => t.id ≠ remoteTask.id)
  else
    match tasks.find? (fun t => t.id == remoteTask.id) with
    | none => tasks ++ [{ remoteTask with synced := true }]
    | some localTask =>
        if timeOf localTask < timeOf remoteTask then
          tasks.map (fun t => if t.id == remoteTask.id then { remoteTask with synced := true } else t)
        else tasks

/-- `TaskManager.syncTasks` (src/sync-manager.js, TaskManager): apply every
merged task to the local store, then mark every remaining local task as
synced. -/
def syncTasks (tasks remoteTasks : List Task) : List Task :=
  (remoteTasks.foldl applyRemoteTask tasks).map (fun t => { t with synced := true })

/-- `SyncManager.syncWithGitHub` (src/sync-manager.js:84).  The remote store
is an oracle: `remoteData` is what `githubConfig.getData()` returns and
`writeSuccess` is the `success` field of `githubConfig.saveData`'s result.
The entry guard returns unchanged state with no effects; a failed read or a
failed write aborts the cycle after logging; only a confirmed write reaches
`taskManager.syncTasks` and the `lastSync` update.  `isSyncing` is cleared on
every exit path (the `finally` block). -/
def syncWithGitHub (st : SyncState) (remoteData : Option RemoteDoc) (writeSuccess : Bool)
    (selfId selfName : String) (now dayMs : Int) : SyncState × SyncEffects :=
  if !st.configured || st.isSyncing || !st.isOnline then
    (st, { remoteReads := 0, remoteWrites := 0, log := [] })
  else
    let localTasks := getAllTasks st.tasks
    match remoteData with
    | none =>
        ({ st with isSyncing := false },
         { remoteReads := 1, remoteWrites := 0,
           log := [{ message := "Error al obtener datos remotos", severity := "error" }] })
    | some remoteDoc =>
        let mergedData := mergeData localTasks remoteDoc.tasks
        let _devices := (updateDevicesList remoteDoc.devices selfId selfName st.isOnline now dayMs).2
        if writeSuccess then
          ({ st with
               tasks := syncTasks st.tasks mergedData,
               lastSync := some now,
               isSyncing := false },
           { remoteReads := 1, remoteWrites := 1,
             log := [{ message := "Sincronización completada exitosamente", severity := "success" }] })
        else
          ({ st with isSyncing := false },
           { remoteReads := 1, remoteWrites := 1,
             log := [{ message := "Error al guardar", severity := "error" }] })

/-- `SyncManager.manualSync` (src/sync-manager.js:298): when a cycle is in
flight, log one warning and return; otherwise log the start notice and run
`syncWithGitHub`. -/
def manualSync (st : SyncState) (remoteData : Option RemoteDoc) (writeSuccess : Bool)
    (selfId selfName : String) (now dayMs : Int) : SyncState × SyncEffects :=
  if st.isSyncing then
    (st, { remoteReads := 0, remoteWrites := 0,
           log := [{ message := "Ya se está sincronizando...", severity := "warning" }] })
  else
    let r := syncWithGitHub st remoteData writeSuccess selfId selfName now dayMs
    (r.1, { r.2 with
              log := { message := "Iniciando sincronización manual...", severity := "info" } :: r.2.log })

/-- Modelled from the spec's description of the JS `Map` dedup used by the
amended C7: the record kept for id `k` is the last occurrence of `k` in the
list (later duplicates overwrite earlier ones). -/
def lookupLast (tasks : List Task) (k : Nat) : Option Task :=
  tasks.foldl (fun acc t => if t.id == k then some t else acc) none

/-! Basic facts about the conflict resolver and the sort model. -/

theorem resolveConflict_eq_or (a b : Task) :
    resolveConflict a b = a ∨ resolveConflict a b = b := by
  unfold resolveConflict
  split
  · exact Or.inl rfl
  split
  · exact Or.inr rfl
  · exact Or.inl rfl

theorem resolveConflict_self (a : Task) : resolveConflict a a = a := by
  simp [resolveConflict]

theorem sortLe_total (a b : Task) : sortLe a b = true ∨ sortLe b a = true := by
  unfold sortLe
  cases a.updatedAt <;> cases b.updatedAt <;> simp
  exact Nat.le_total _ _

theorem insertTask_perm (x : Task) (l : List Task) : List.Perm (insertTask x l) (x :: l) := by
  induction l with
  | nil => exact List.Perm.refl _
  | cons y ys ih =>
    unfold insertTask
    split
    · exact List.Perm.refl _
    · exact List.Perm.trans (List.Perm.cons y ih) (List.Perm.swap x y ys)

theorem sortTasks_perm (l : List Task) : List.Perm (sortTasks l) l := by
  induction l with
  | nil => exact List.Perm.refl _
  | cons x xs ih =>
    exact List.Perm.trans (insertTask_perm x (sortTasks xs)) (List.Perm.cons x ih)

theorem insertTask_head? (x : Task) (l : List Task) :
    (insertTask x l).head? = some x ∨ (insertTask x l).head? = l.head? := by
  cases l with
  | nil => exact Or.inl rfl
  | cons y ys =>
    unfold insertTask
    split
    · exact Or.inl rfl
    · exact Or.inr rfl

theorem insertTask_chain {x : Task} {l : List Task}
    (h : List.Chain' (fun a b => sortLe a b = true) l) :
    List.Chain' (fun a b => sortLe a b = true) (insertTask x l) := by
  induction l with
  | nil => simp [insertTask]
  | cons y ys ih =>
    unfold insertTask
    split
    · rename_i hxy
      exact List.chain'_cons.mpr ⟨hxy, h⟩
    · rename_i hxy
      have hyx : sortLe y x = true := (sortLe_total x y).resolve_left hxy
      have hys : List.Chain' (fun a b => sortLe a b = true) ys := h.tail
      refine List.chain'_cons'.mpr ⟨?_, ih hys⟩
      intro z hz
      rcases insertTask_head? x ys with hh | hh
      · rw [hh] at hz
        cases hz
        exact hyx
      · rw [hh] at hz
        exact (List.chain'_cons'.mp h).1 z hz

theorem sortTasks_chain (l : List Task) :
    List.Chain' (fun a b => sortLe a b = true) (sortTasks l) := by
  induction l with
  | nil => simp [sortTasks]
  | cons x xs ih => exact insertTask_chain ih

theorem sortTasks_of_chain {l : List Task}
    (h : List.Chain' (fun a b => sortLe a b = true) l) : sortTasks l = l := by
  induction l with
  | nil => rfl
  | cons x xs ih =>
    have hxs : sortTasks xs = xs := ih h.tail
    show insertTask x (sortTasks xs) = x :: xs
    rw [hxs]
    cases xs with
    | nil => rfl
    | cons y ys =>
      have hxy : sortLe x y = true := (List.chain'_cons.mp h).1
      simp [insertTask, hxy]

/-! Facts about the JS `Map` model. -/

theorem mapGet_cons (p : Nat × Task) (m : List (Nat × Task)) (k : Nat) :
    mapGet (p :: m) k = if p.1 = k then some p.2 else mapGet m k := by
  by_cases h : p.1 = k
  · unfold mapGet
    rw [List.find?_cons_of_pos _ (by simpa using h), if_pos h]
    rfl
  · unfold mapGet
    rw [List.find?_cons_of_neg _ (by simpa using h), if_neg h]

theorem mapGet_map_self {m : List (Nat × Task)} {k : Nat} {v : Task}
    (h : m.any (fun p => p.1 == k) = true) :
    mapGet (m.map (fun p => if p.1 == k then (k, v) else p)) k = some v := by
  induction m with
  | nil => simp at h
  | cons p ps ih =>
    rw [List.map_cons]
    by_cases hp : p.1 = k
    · have hf : (if (p.1 == k) = true then (k, v) else p) = (k, v) := by simp [hp]
      rw [hf, mapGet_cons, if_pos rfl]
    · have hf : (if (p.1 == k) = true then (k, v) else p) = p := by simp [hp]
      rw [hf, mapGet_cons, if_neg hp]
      apply ih
      rw [List.any_cons] at h
      simpa [hp] using h

theorem mapGet_map_ne {m : List (Nat × Task)} {k kq : Nat} {v : Task}
    (h : kq ≠ k) :
    mapGet (m.map (fun p => if p.1 == k then (k, v) else p)) kq = mapGet m kq := by
  induction m with
  | nil => rfl
  | cons p ps ih =>
    rw [List.map_cons]
    by_cases hp : p.1 = k
    · have hf : (if (p.1 == k) = true then (k, v) else p) = (k, v) := by simp [hp]
      have hkq : ¬ ((k, v).1 = kq) := fun hh => h hh.symm
      have hkq2 : ¬ p.1 = kq := by
        rw [hp]
        exact fun hh => h hh.symm
      rw [hf, mapGet_cons, if_neg hkq, mapGet_cons, if_neg hkq2]
      exact ih
    · have hf : (if (p.1 == k) = true then (k, v) else p) = p := by simp [hp]
      rw [hf, mapGet_cons, mapGet_cons]
      by_cases hq : p.1 = kq
      · rw [if_pos hq, if_pos hq]
      · rw [if_neg hq, if_neg hq]
        exact ih

theorem mapGet_mapSet (m : List (Nat × Task)) (k : Nat) (v : Task) (kq : Nat) :
    mapGet (mapSet m k v) kq = if kq = k then some v else mapGet m kq := by
  by_cases hq : kq = k
  · subst hq
    rw [if_pos rfl]
    unfold mapSet
    split
    · rename_i h
      exact mapGet_map_self h
    · rename_i h
      have hnone : m.find? (fun p => p.1 == kq) = none := by
        rw [List.find?_eq_none]
        intro p hp
        have hfalse := List.any_eq_false.mp (Bool.eq_false_iff.mpr h) p hp
        simpa using hfalse
      unfold mapGet
      rw [List.find?_append, hnone, Option.none_or,
        List.find?_cons_of_pos _ (by simp)]
      rfl
  · rw [if_neg hq]
    unfold mapSet
    split
    · exact mapGet_map_ne hq
    · have hsing : List.find? (fun p => p.1 == kq) [(k, v)] = none := by
        rw [List.find?_cons_of_neg _ (by simpa using Ne.symm hq)]
        rfl
      unfold mapGet
      rw [List.find?_append, hsing, Option.or_none]

theorem mem_mapKeys_mapSet {m : List (Nat × Task)} {k : Nat} {v : Task} {a : Nat} :
    a ∈ mapKeys (mapSet m k v) ↔ a ∈ mapKeys m ∨ a = k := by
  unfold mapSet
  split
  · rename_i h
    have hk : k ∈ mapKeys m := by
      obtain ⟨p, hp, hpk⟩ := List.any_eq_true.mp h
      have : p.1 = k := by simpa using hpk
      exact this ▸ List.mem_map_of_mem _ hp
    have hkeys : mapKeys (m.map (fun p => if p.1 == k then (k, v) else p)) = mapKeys m := by
      unfold mapKeys
      rw [List.map_map]
      apply List.map_congr_left
      intro p _
      by_cases hp : p.1 = k
      · simp [hp]
      · simp [hp]
    rw [hkeys]
    constructor
    · exact Or.inl
    · rintro (h1 | h1)
      · exact h1
      · exact h1 ▸ hk
  · simp [mapKeys, List.map_append]

theorem nodup_mapKeys_mapSet {m : List (Nat × Task)} {k : Nat} {v : Task}
    (h : (mapKeys m).Nodup) : (mapKeys (mapSet m k v)).Nodup := by
  unfold mapSet
  split
  · rename_i hany
    have hkeys : mapKeys (m.map (fun p => if p.1 == k then (k, v) else p)) = mapKeys m := by
      unfold mapKeys
      rw [List.map_map]
      apply List.map_congr_left
      intro p _
      by_cases hp : p.1 = k
      · simp [hp]
      · simp [hp]
    rw [hkeys]
    exact h
  · rename_i hany
    have hk : k ∉ mapKeys m := by
      intro hkmem
      apply hany
      obtain ⟨p, hp, hpk⟩ := List.mem_map.mp hkmem
      exact List.any_eq_true.mpr ⟨p, hp, by simp [hpk]⟩
    unfold mapKeys
    rw [List.map_append]
    refine List.Nodup.append h (by simp) ?_
    intro a ha hb
    have hak : a = k := by simpa using hb
    exact hk (hak ▸ ha)

theorem mapSet_entry_id {m : List (Nat × Task)} {k : Nat} {v : Task}
    (hm : ∀ p ∈ m, p.2.id = p.1) (hv : v.id = k) :
    ∀ p ∈ mapSet m k v, p.2.id = p.1 := by
  unfold mapSet
  split
  · intro p hp
    obtain ⟨q, hq, hfq⟩ := List.mem_map.mp hp
    by_cases hqk : q.1 = k
    · simp [hqk] at hfq
      rw [← hfq]
      exact hv
    · simp [hqk] at hfq
      exact hfq ▸ hm q hq
  · intro p hp
    rcases List.mem_append.mp hp with h1 | h1
    · exact hm p h1
    · simp at h1
      rw [h1]
      exact hv

theorem foldl_buildMap_keys_mem (l : List Task) :
    ∀ (m : List (Nat × Task)) (a : Nat),
      (a ∈ mapKeys (l.foldl (fun m t => mapSet m t.id t) m) ↔
        a ∈ mapKeys m ∨ a ∈ l.map Task.id) := by
  induction l with
  | nil => intro m a; simp
  | cons t ts ih =>
    intro m a
    rw [List.foldl_cons, ih]
    rw [mem_mapKeys_mapSet]
    simp
    tauto

theorem foldl_buildMap_keys_nodup (l : List Task) :
    ∀ (m : List (Nat × Task)), (mapKeys m).Nodup →
      (mapKeys (l.foldl (fun m t => mapSet m t.id t) m)).Nodup := by
  induction l with
  | nil => intro m h; exact h
  | cons t ts ih =>
    intro m h
    rw [List.foldl_cons]
    exact ih _ (nodup_mapKeys_mapSet h)

theorem foldl_buildMap_entry_id (l : List Task) :
    ∀ (m : List (Nat × Task)), (∀ p ∈ m, p.2.id = p.1) →
      ∀ p ∈ l.foldl (fun m t => mapSet m t.id t) m, p.2.id = p.1 := by
  induction l with
  | nil => intro m h; exact h
  | cons t ts ih =>
    intro m h
    rw [List.foldl_cons]
    exact ih _ (mapSet_entry_id h rfl)

theorem mem_mapKeys_buildMap {l : List Task} {a : Nat} :
    a ∈ mapKeys (buildMap l) ↔ a ∈ l.map Task.id := by
  unfold buildMap
  rw [foldl_buildMap_keys_mem]
  simp [mapKeys]

theorem nodup_mapKeys_buildMap (l : List Task) : (mapKeys (buildMap l)).Nodup := by
  unfold buildMap
  exact foldl_buildMap_keys_nodup l [] (by simp [mapKeys])

theorem buildMap_entry_id {l : List Task} : ∀ p ∈ buildMap l, p.2.id = p.1 := by
  unfold buildMap
  exact foldl_buildMap_entry_id l [] (by simp)

theorem mapGet_foldl (l : List Task) :
    ∀ (m : List (Nat × Task)) (k : Nat),
      mapGet (l.foldl (fun m t => mapSet m t.id t) m) k =
        l.foldl (fun acc t => if t.id == k then some t else acc) (mapGet m k) := by
  induction l with
  | nil => intro m k; rfl
  | cons t ts ih =>
    intro m k
    rw [List.foldl_cons, ih, List.foldl_cons, mapGet_mapSet]
    by_cases h : t.id = k
    · simp [h]
    · simp [h, Ne.symm h]

theorem mapGet_buildMap (l : List Task) (k : Nat) :
    mapGet (buildMap l) k = lookupLast l k := by
  unfold buildMap lookupLast
  rw [mapGet_foldl]
  rfl

theorem mapGet_isSome_iff {m : List (Nat × Task)} {k : Nat} :
    (mapGet m k).isSome ↔ k ∈ mapKeys m := by
  unfold mapGet mapKeys
  constructor
  · intro h
    cases hf : List.find? (fun p => p.1 == k) m with
    | none =>
      rw [hf] at h
      simp at h
    | some p =>
      have hpk := List.find?_some hf
      have hpm : p ∈ m := List.mem_of_find?_eq_some hf
      simp only [] at hpk
      exact List.mem_map.mpr ⟨p, hpm, by simpa using hpk⟩
  · intro h
    cases hf : List.find? (fun p => p.1 == k) m with
    | none =>
      rw [List.find?_eq_none] at hf
      obtain ⟨p, hp, hpk⟩ := List.mem_map.mp h
      have hbad := hf p hp
      simp [hpk] at hbad
    | some p =>
      simp

theorem mapGet_id {m : List (Nat × Task)} {k : Nat} {t : Task}
    (hm : ∀ p ∈ m, p.2.id = p.1) (h : mapGet m k = some t) : t.id = k := by
  unfold mapGet at h
  obtain ⟨p, hfind, hpt⟩ := Option.map_eq_some'.mp h
  have hpk := List.find?_some hfind
  have hpm : p ∈ m := List.mem_of_find?_eq_some hfind
  have hid := hm p hpm
  rw [hpt] at hid
  rw [hid]
  simpa using hpk

/-! Facts about the Set-based dedup. -/

theorem mem_dedupGo (l : List Nat) :
    ∀ (seen : List Nat) (a : Nat), a ∈ dedupGo seen l ↔ a ∈ l ∧ a ∉ seen := by
  induction l with
  | nil => intro seen a; simp [dedupGo]
  | cons x xs ih =>
    intro seen a
    unfold dedupGo
    by_cases hx : x ∈ seen
    · rw [if_pos hx, ih]
      constructor
      · rintro ⟨h1, h2⟩
        exact ⟨List.mem_cons_of_mem x h1, h2⟩
      · rintro ⟨h1, h2⟩
        rcases List.mem_cons.mp h1 with rfl | h1
        · exact absurd hx h2
        · exact ⟨h1, h2⟩
    · rw [if_neg hx]
      constructor
      · intro h1
        rcases List.mem_cons.mp h1 with rfl | h1
        · exact ⟨List.mem_cons_self a xs, hx⟩
        · obtain ⟨hmem, hns⟩ := (ih (x :: seen) a).mp h1
          exact ⟨List.mem_cons_of_mem x hmem, fun hc => hns (List.mem_cons_of_mem x hc)⟩
      · rintro ⟨h1, h2⟩
        rcases List.mem_cons.mp h1 with rfl | h1
        · exact List.mem_cons_self a _
        · by_cases hax : a = x
          · subst hax
            exact List.mem_cons_self a _
          · refine List.mem_cons_of_mem x ((ih (x :: seen) a).mpr ⟨h1, ?_⟩)
            intro hc
            rcases List.mem_cons.mp hc with hc | hc
            · exact hax hc
            · exact h2 hc

theorem nodup_dedupGo (l : List Nat) : ∀ (seen : List Nat), (dedupGo seen l).Nodup := by
  induction l with
  | nil => intro seen; simp [dedupGo]
  | cons x xs ih =>
    intro seen
    unfold dedupGo
    split
    · exact ih seen
    · refine List.Nodup.cons ?_ (ih (x :: seen))
      intro hc
      have := (mem_dedupGo xs (x :: seen) x).mp hc
      exact this.2 (List.mem_cons_self x seen)

theorem dedupGo_eq_self (l : List Nat) :
    ∀ (seen : List Nat), l.Nodup → (∀ a ∈ l, a ∉ seen) → dedupGo seen l = l := by
  induction l with
  | nil => intro seen _ _; rfl
  | cons x xs ih =>
    intro seen hnd hdisj
    unfold dedupGo
    rw [if_neg (hdisj x (List.mem_cons_self x xs))]
    congr 1
    refine ih (x :: seen) (List.nodup_cons.mp hnd).2 ?_
    intro a ha hc
    rcases List.mem_cons.mp hc with hc | hc
    · exact (List.nodup_cons.mp hnd).1 (hc ▸ ha)
    · exact hdisj a (List.mem_cons_of_mem _ ha) hc

theorem dedupGo_nil_of_subset (l : List Nat) :
    ∀ (seen : List Nat), (∀ a ∈ l, a ∈ seen) → dedupGo seen l = [] := by
  induction l with
  | nil => intro seen _; rfl
  | cons x xs ih =>
    intro seen h
    unfold dedupGo
    rw [if_pos (h x (List.mem_cons_self x xs))]
    exact ih seen (fun a ha => h a (List.mem_cons_of_mem _ ha))

theorem dedupGo_append_of_subset (l2 : List Nat) :
    ∀ (l1 seen : List Nat), (∀ a ∈ l2, a ∈ seen ∨ a ∈ l1) →
      dedupGo seen (l1 ++ l2) = dedupGo seen l1 := by
  intro l1
  induction l1 with
  | nil =>
    intro seen h
    have : ∀ a ∈ l2, a ∈ seen := by
      intro a ha
      rcases h a ha with h1 | h1
      · exact h1
      · simp at h1
    simpa [dedupGo] using dedupGo_nil_of_subset l2 seen this
  | cons x xs ih =>
    intro seen h
    rw [List.cons_append]
    unfold dedupGo
    split
    · rename_i hx
      refine ih seen ?_
      intro a ha
      rcases h a ha with h1 | h1
      · exact Or.inl h1
      · rcases List.mem_cons.mp h1 with h1 | h1
        · exact Or.inl (h1 ▸ hx)
        · exact Or.inr h1
    · rename_i hx
      congr 1
      refine ih (x :: seen) ?_
      intro a ha
      rcases h a ha with h1 | h1
      · exact Or.inl (List.mem_cons_of_mem _ h1)
      · rcases List.mem_cons.mp h1 with h1 | h1
        · exact Or.inl (h1 ▸ List.mem_cons_self x seen)
        · exact Or.inr h1

theorem mem_pwDedup {l : List Nat} {a : Nat} : a ∈ pwDedup l ↔ a ∈ l := by
  unfold pwDedup
  rw [mem_dedupGo]
  simp

theorem nodup_pwDedup (l : List Nat) : (pwDedup l).Nodup := nodup_dedupGo l []

theorem pwDedup_eq_self {l : List Nat} (h : l.Nodup) : pwDedup l = l :=
  dedupGo_eq_self l [] h (by simp)

theorem pwDedup_append_self (l : List Nat) : pwDedup (l ++ l) = pwDedup l :=
  dedupGo_append_of_subset l l [] (fun _a ha => Or.inr ha)

/-! Facts about the merge pipeline. -/

theorem mergePick_id {lm rm : List (Nat × Task)} {k : Nat} {t : Task}
    (hl : ∀ p ∈ lm, p.2.id = p.1) (hr : ∀ p ∈ rm, p.2.id = p.1)
    (h : mergePick lm rm k = some t) : t.id = k := by
  unfold mergePick at h
  cases hgl : mapGet lm k with
  | none =>
    cases hgr : mapGet rm k with
    | none => rw [hgl, hgr] at h; exact absurd h (by simp)
    | some rt =>
      rw [hgl, hgr] at h
      have ht : rt = t := by simpa using h
      exact ht ▸ mapGet_id hr hgr
  | some lt =>
    cases hgr : mapGet rm k with
    | none =>
      rw [hgl, hgr] at h
      have ht : lt = t := by simpa using h
      exact ht ▸ mapGet_id hl hgl
    | some rt =>
      rw [hgl, hgr] at h
      have ht : resolveConflict lt rt = t := by simpa using h
      rcases resolveConflict_eq_or lt rt with he | he
      · rw [he] at ht
        exact ht ▸ mapGet_id hl hgl
      · rw [he] at ht
        exact ht ▸ mapGet_id hr hgr

theorem mergePick_isSome {lm rm : List (Nat × Task)} {k : Nat}
    (h : k ∈ mapKeys lm ∨ k ∈ mapKeys rm) : (mergePick lm rm k).isSome := by
  unfold mergePick
  cases hgl : mapGet lm k with
  | none =>
    cases hgr : mapGet rm k with
    | none =>
      rcases h with h | h
      · have := mapGet_isSome_iff.mpr h
        rw [hgl] at this
        simp at this
      · have := mapGet_isSome_iff.mpr h
        rw [hgr] at this
        simp at this
    | some rt => simp
  | some lt =>
    cases hgr : mapGet rm k with
    | none => simp
    | some rt => simp

theorem filterMap_congr_mem {α β : Type} {f g : α → Option β} (l : List α)
    (h : ∀ a ∈ l, f a = g a) : l.filterMap f = l.filterMap g := by
  induction l with
  | nil => rfl
  | cons x xs ih =>
    rw [List.filterMap_cons, List.filterMap_cons, h x (List.mem_cons_self x xs),
      ih (fun a ha => h a (List.mem_cons_of_mem x ha))]

theorem filterMap_map_id_eq {f : Nat → Option Task} (ids : List Nat)
    (h : ∀ a ∈ ids, ∃ t, f a = some t ∧ t.id = a) :
    (ids.filterMap f).map Task.id = ids := by
  induction ids with
  | nil => rfl
  | cons a as ih =>
    obtain ⟨t, hfa, hid⟩ := h a (List.mem_cons_self a as)
    rw [List.filterMap_cons, hfa, List.map_cons, hid,
      ih (fun b hb => h b (List.mem_cons_of_mem a hb))]

/-- The ids of a merge's output are exactly the deduplicated union of the two
key lists, up to the final sort's permutation. -/
theorem mergeData_ids_perm (A B : List Task) :
    List.Perm ((mergeData A B).map Task.id)
      (pwDedup (mapKeys (buildMap A) ++ mapKeys (buildMap B))) := by
  unfold mergeData
  have hperm := sortTasks_perm
    ((pwDedup (mapKeys (buildMap A) ++ mapKeys (buildMap B))).filterMap
      (mergePick (buildMap A) (buildMap B)))
  refine List.Perm.trans (List.Perm.map Task.id hperm) ?_
  rw [filterMap_map_id_eq]
  intro a ha
  have hmem : a ∈ mapKeys (buildMap A) ++ mapKeys (buildMap B) := mem_pwDedup.mp ha
  have hsome : (mergePick (buildMap A) (buildMap B) a).isSome :=
    mergePick_isSome (List.mem_append.mp hmem)
  obtain ⟨t, ht⟩ := Option.isSome_iff_exists.mp hsome
  exact ⟨t, ht, mergePick_id buildMap_entry_id buildMap_entry_id ht⟩

theorem mergeData_ids_nodup (A B : List Task) : ((mergeData A B).map Task.id).Nodup :=
  (List.Perm.nodup_iff (mergeData_ids_perm A B)).mpr
    (nodup_pwDedup (mapKeys (buildMap A) ++ mapKeys (buildMap B)))

theorem mem_mergeData_ids (A B : List Task) (a : Nat) :
    a ∈ (mergeData A B).map Task.id ↔ a ∈ A.map Task.id ∨ a ∈ B.map Task.id := by
  rw [List.Perm.mem_iff (mergeData_ids_perm A B), mem_pwDedup, List.mem_append,
    mem_mapKeys_buildMap, mem_mapKeys_buildMap]

theorem mergeData_chain (A B : List Task) :
    List.Chain' (fun a b => sortLe a b = true) (mergeData A B) := by
  unfold mergeData
  exact sortTasks_chain _

/-- On a list whose ids are distinct, the JS `Map` is just the association
list of the tasks in order. -/
theorem foldl_buildMap_of_nodup (l : List Task) :
    ∀ (m : List (Nat × Task)), (∀ t ∈ l, t.id ∉ mapKeys m) → (l.map Task.id).Nodup →
      l.foldl (fun m t => mapSet m t.id t) m = m ++ l.map (fun t => (t.id, t)) := by
  induction l with
  | nil => intro m _ _; simp
  | cons t ts ih =>
    intro m hdisj hnd
    rw [List.foldl_cons]
    have hany : (m.any (fun p => p.1 == t.id)) = false := by
      rw [List.any_eq_false]
      intro p hp
      intro hc
      have hpt : p.1 = t.id := by simpa using hc
      exact hdisj t (List.mem_cons_self t ts) (hpt ▸ List.mem_map_of_mem _ hp)
    have hset : mapSet m t.id t = m ++ [(t.id, t)] := by
      unfold mapSet
      rw [hany]
      simp
    rw [hset, ih (m ++ [(t.id, t)]) ?_ ?_]
    · rw [List.append_assoc]
      rfl
    · intro u hu hc
      unfold mapKeys at hc
      rw [List.map_append, List.mem_append] at hc
      rcases hc with hc | hc
      · exact hdisj u (List.mem_cons_of_mem t hu) hc
      · have hut : u.id = t.id := by simpa using hc
        rw [List.map_cons] at hnd
        exact (List.nodup_cons.mp hnd).1 (hut ▸ List.mem_map_of_mem _ hu)
    · rw [List.map_cons] at hnd
      exact (List.nodup_cons.mp hnd).2

theorem buildMap_of_nodup {l : List Task} (h : (l.map Task.id).Nodup) :
    buildMap l = l.map (fun t => (t.id, t)) := by
  unfold buildMap
  rw [foldl_buildMap_of_nodup l [] (by simp [mapKeys]) h]
  rfl

theorem mapKeys_map_pair (l : List Task) :
    mapKeys (l.map (fun t => (t.id, t))) = l.map Task.id := by
  unfold mapKeys
  rw [List.map_map]
  rfl

/-- Merging a list of distinct-id tasks with itself reproduces the list before
the final sort. -/
theorem filterMap_mergePick_self (M : List Task) (hnd : (M.map Task.id).Nodup) :
    (M.map Task.id).filterMap
      (mergePick (M.map (fun t => (t.id, t))) (M.map (fun t => (t.id, t)))) = M := by
  induction M with
  | nil => rfl
  | cons t ts ih =>
    rw [List.map_cons] at hnd ⊢
    have hhead : mapGet ((t.id, t) :: ts.map (fun t => (t.id, t))) t.id = some t := by
      rw [mapGet_cons, if_pos rfl]
    have hpick : mergePick ((t.id, t) :: ts.map (fun t => (t.id, t)))
        ((t.id, t) :: ts.map (fun t => (t.id, t))) t.id = some t := by
      unfold mergePick
      rw [hhead]
      simp [resolveConflict_self]
    rw [List.map_cons, List.filterMap_cons_some hpick]
    congr 1
    have hcongr : ∀ a ∈ ts.map Task.id,
        mergePick ((t.id, t) :: ts.map (fun t => (t.id, t)))
            ((t.id, t) :: ts.map (fun t => (t.id, t))) a =
          mergePick (ts.map (fun t => (t.id, t))) (ts.map (fun t => (t.id, t))) a := by
      intro a ha
      have hne : ¬ ((t.id, t).1 = a) := by
        intro hc
        have hta : t.id = a := hc
        refine (List.nodup_cons.mp hnd).1 ?_
        rw [hta]
        exact ha
      unfold mergePick
      rw [mapGet_cons, if_neg hne]
    rw [filterMap_congr_mem _ hcongr]
    exact ih (List.nodup_cons.mp hnd).2

theorem mergeData_def (A B : List Task) :
    mergeData A B =
      sortTasks ((pwDedup (mapKeys (buildMap A) ++ mapKeys (buildMap B))).filterMap
        (mergePick (buildMap A) (buildMap B))) := rfl

theorem mergePick_nil_left (rm : List (Nat × Task)) (a : Nat) :
    mergePick [] rm a = mapGet rm a := by
  unfold mergePick
  cases h : mapGet rm a with
  | none => rfl
  | some rt => rfl

theorem filterMap_mapGet_keys (m : List (Nat × Task)) (h : (mapKeys m).Nodup) :
    (mapKeys m).filterMap (mapGet m) = m.map (fun p => p.2) := by
  induction m with
  | nil => rfl
  | cons p rest ih =>
    obtain ⟨k, v⟩ := p
    have hkeys : mapKeys ((k, v) :: rest) = k :: mapKeys rest := rfl
    rw [hkeys] at h ⊢
    have hget : mapGet ((k, v) :: rest) k = some v := by
      rw [mapGet_cons, if_pos rfl]
    rw [List.filterMap_cons_some hget]
    have hcongr : ∀ a ∈ mapKeys rest,
        mapGet ((k, v) :: rest) a = mapGet rest a := by
      intro a ha
      have hka : ¬ ((k, v).1 = a) := by
        intro hc
        have hck : k = a := hc
        refine (List.nodup_cons.mp h).1 ?_
        rw [hck]
        exact ha
      rw [mapGet_cons, if_neg hka]
    rw [filterMap_congr_mem _ hcongr, ih (List.nodup_cons.mp h).2]
    rfl

theorem mem_replaceFirst_self {info : Device} (l : List Device)
    (h : l.any (fun d => d.id == info.id) = true) : info ∈ replaceFirst info l := by
  induction l with
  | nil => simp at h
  | cons d ds ih =>
    unfold replaceFirst
    by_cases hd : (d.id == info.id) = true
    · rw [if_pos hd]
      exact List.mem_cons_self _ _
    · rw [if_neg hd]
      refine List.mem_cons_of_mem d (ih ?_)
      rw [List.any_cons] at h
      simpa [hd] using h

theorem mem_replaceFirst_of_ne {d info : Device} {l : List Device}
    (hd : d ∈ l) (hne : d.id ≠ info.id) : d ∈ replaceFirst info l := by
  induction l with
  | nil => simp at hd
  | cons e es ih =>
    unfold replaceFirst
    by_cases he : (e.id == info.id) = true
    · rw [if_pos he]
      rcases List.mem_cons.mp hd with rfl | hd2
      · exact absurd (by simpa using he) hne
      · exact List.mem_cons_of_mem _ hd2
    · rw [if_neg he]
      rcases List.mem_cons.mp hd with rfl | hd2
      · exact List.mem_cons_self _ _
      · exact List.mem_cons_of_mem _ (ih hd2)

/-! The claims. -/

/-- C1: for a local and a remote task record sharing the same id, the merge's
conflict resolution returns the record whose `updatedAt` is strictly greater,
and returns the local record when the two `updatedAt` values are exactly
equal. -/
theorem resolveConflict_newer_wins (localTask remoteTask : Task) (a b : Nat)
    (_hid : localTask.id = remoteTask.id)
    (hl : localTask.updatedAt = some a) (hr : remoteTask.updatedAt = some b) :
    (b < a → resolveConflict localTask remoteTask = localTask) ∧
    (a < b → resolveConflict localTask remoteTask = remoteTask) ∧
    (a = b → resolveConflict localTask remoteTask = localTask) := by
  unfold resolveConflict timeOf
  rw [hl, hr]
  simp only [Option.getD_some]
  refine ⟨fun h => ?_, fun h => ?_, fun h => ?_⟩
  · rw [if_pos h]
  · rw [if_neg (by omega), if_pos h]
  · rw [if_neg (by omega), if_neg (by omega)]

/-- Witness for C1 at concrete records: local `updatedAt` 3, remote 2. -/
theorem resolveConflict_newer_wins_witness :
    let tL : Task := { id := 1, title := "L", completed := false, deleted := false,
                       updatedAt := some 3, synced := false }
    let tR : Task := { id := 1, title := "R", completed := false, deleted := false,
                       updatedAt := some 2, synced := false }
    (2 < 3 → resolveConflict tL tR = tL) ∧ (3 < 2 → resolveConflict tL tR = tR) ∧
      (3 = 2 → resolveConflict tL tR = tL) := by
  intro tL tR
  exact resolveConflict_newer_wins tL tR 3 2 rfl rfl rfl

/-- C2 (code evidence): `getAllTasks`, the read used by step 1 of the sync
cycle, drops a tombstoned task instead of including it: at the concrete local
store holding exactly one `deleted` task, the list handed to the Merge Engine
is empty. -/
theorem getAllTasks_drops_tombstone :
    ({ id := 1, title := "x", completed := false, deleted := true, updatedAt := some 5,
       synced := false } : Task) ∉
        getAllTasks [{ id := 1, title := "x", completed := false, deleted := true,
                       updatedAt := some 5, synced := false }] ∧
      getAllTasks [({ id := 1, title := "x", completed := false, deleted := true,
                      updatedAt := some 5, synced := false } : Task)] = [] := by
  decide

/-- C3: if the remote read returns absent or the remote write reports failure,
the cycle leaves the local task records (hence their `synced` flags) and the
persisted `lastSync` value exactly as they were. -/
theorem syncWithGitHub_failure_no_mutation (st : SyncState) (remoteData : Option RemoteDoc)
    (writeSuccess : Bool) (selfId selfName : String) (now dayMs : Int)
    (h : remoteData = none ∨ writeSuccess = false) :
    (syncWithGitHub st remoteData writeSuccess selfId selfName now dayMs).1.tasks = st.tasks ∧
      (syncWithGitHub st remoteData writeSuccess selfId selfName now dayMs).1.lastSync =
        st.lastSync := by
  unfold syncWithGitHub
  split
  · exact ⟨rfl, rfl⟩
  · cases remoteData with
    | none => exact ⟨rfl, rfl⟩
    | some rd =>
      rcases h with h | h
      · exact absurd h (by simp)
      · subst h
        exact ⟨rfl, rfl⟩

/-- Witness for C3 at a concrete state and a failed remote read. -/
theorem syncWithGitHub_failure_no_mutation_witness :
    let st : SyncState := { tasks := [{ id := 4, title := "w", completed := false,
                                        deleted := false, updatedAt := some 2, synced := false }],
                            lastSync := some 1, isSyncing := false, isOnline := true,
                            configured := true }
    (syncWithGitHub st none true "dev" "name" 9 86400000).1.tasks = st.tasks ∧
      (syncWithGitHub st none true "dev" "name" 9 86400000).1.lastSync = st.lastSync := by
  intro st
  exact syncWithGitHub_failure_no_mutation st none true "dev" "name" 9 86400000 (Or.inl rfl)

/-- C4: merge is idempotent — merging the output of a merge with itself
returns that output unchanged, same records in the same order. -/
theorem mergeData_idempotent (A B : List Task) :
    mergeData (mergeData A B) (mergeData A B) = mergeData A B := by
  have hnd : ((mergeData A B).map Task.id).Nodup := mergeData_ids_nodup A B
  have hchain := mergeData_chain A B
  rw [mergeData_def (mergeData A B) (mergeData A B), buildMap_of_nodup hnd,
    mapKeys_map_pair, pwDedup_append_self, pwDedup_eq_self hnd,
    filterMap_mergePick_self (mergeData A B) hnd]
  exact sortTasks_of_chain hchain

/-- C5: union completeness — the merged output's ids are exactly the ids
present in either input, and each id appears exactly once. -/
theorem mergeData_union_complete (A B : List Task) :
    ((mergeData A B).map Task.id).Nodup ∧
      ∀ a, (a ∈ (mergeData A B).map Task.id ↔ a ∈ A.map Task.id ∨ a ∈ B.map Task.id) :=
  ⟨mergeData_ids_nodup A B, fun a => mem_mergeData_ids A B a⟩

/-- C6 (counterexample): `updateDevicesList` does mutate its input list in
place — with an empty input registry the caller's array afterwards holds the
pushed self entry, so it is no longer the empty list that was passed in. -/
theorem updateDevicesList_mutation_counterexample :
    (updateDevicesList [] "me" "name" true 0 86400000).1 ≠ [] := by
  decide

/-- C6 (amended): the upsert is deterministic in its explicit inputs (it is a
function of them), but it is not pure: whenever the upserted self record is
not already an element of the input list, the input array after the call
differs from what was passed in. -/
theorem updateDevicesList_mutates_input (devices : List Device) (selfId selfName : String)
    (online : Bool) (now dayMs : Int)
    (h : ({ id := selfId, name := selfName, lastSeen := now, online := online } : Device)
      ∉ devices) :
    (updateDevicesList devices selfId selfName online now dayMs).1 ≠ devices := by
  have h1 : (updateDevicesList devices selfId selfName online now dayMs).1 =
      if devices.any (fun d => d.id == selfId)
        then replaceFirst { id := selfId, name := selfName, lastSeen := now, online := online }
          devices
        else devices ++
          [{ id := selfId, name := selfName, lastSeen := now, online := online }] := rfl
  rw [h1]
  by_cases hany : devices.any (fun d => d.id == selfId) = true
  · rw [if_pos hany]
    intro heq
    have hmem : ({ id := selfId, name := selfName, lastSeen := now, online := online } : Device)
        ∈ replaceFirst { id := selfId, name := selfName, lastSeen := now, online := online }
          devices :=
      mem_replaceFirst_self devices hany
    rw [heq] at hmem
    exact h hmem
  · rw [if_neg hany]
    intro heq
    have hlen := congrArg List.length heq
    simp at hlen

/-- Witness for C6's amended theorem at a concrete input. -/
theorem updateDevicesList_mutates_input_witness :
    (updateDevicesList [] "alpha" "beta" true 5 86400000).1 ≠ [] := by
  exact updateDevicesList_mutates_input [] "alpha" "beta" true 5 86400000 (by decide)

/-- C7 (counterexample): with an empty local set and a remote list holding two
different records under the same id, the merge keeps the last-seen duplicate,
not the first-seen one the claim promises. -/
theorem mergeData_first_seen_counterexample :
    mergeData []
        [{ id := 1, title := "a", completed := false, deleted := false, updatedAt := some 5,
           synced := false },
         { id := 1, title := "b", completed := false, deleted := false, updatedAt := some 5,
           synced := false }] =
      [{ id := 1, title := "b", completed := false, deleted := false, updatedAt := some 5,
         synced := false }] ∧
    ({ id := 1, title := "a", completed := false, deleted := false, updatedAt := some 5,
       synced := false } : Task) ∉
      mergeData []
        [{ id := 1, title := "a", completed := false, deleted := false, updatedAt := some 5,
           synced := false },
         { id := 1, title := "b", completed := false, deleted := false, updatedAt := some 5,
           synced := false }] := by
  decide

/-- C7 (amended): for an empty local set, merge returns exactly the remote set
deduplicated by id and stably sorted by `updatedAt` descending, where the
dedup is the JS `Map` one: for each id the kept record is the last occurrence
in the remote list (at the first occurrence's position). -/
theorem mergeData_empty_local (R : List Task) :
    mergeData [] R = sortTasks ((buildMap R).map (fun p => p.2)) ∧
      ∀ k, mapGet (buildMap R) k = lookupLast R k := by
  constructor
  · rw [mergeData_def [] R]
    have hb : buildMap ([] : List Task) = [] := rfl
    rw [hb]
    have hk : mapKeys ([] : List (Nat × Task)) = [] := rfl
    rw [hk, List.nil_append, pwDedup_eq_self (nodup_mapKeys_buildMap R)]
    rw [filterMap_congr_mem _ (fun a _ => mergePick_nil_left (buildMap R) a)]
    rw [filterMap_mapGet_keys (buildMap R) (nodup_mapKeys_buildMap R)]
  · intro k
    exact mapGet_buildMap R k

/-- C8 (counterexample): the presence half of the pruning claim fails when the
device in question is the syncing device itself — its entry is replaced by a
fresh one, so the record with `lastSeen` now−6days is absent from the
output. -/
theorem updateDevicesList_pruning_counterexample :
    ({ id := "me", name := "old", lastSeen := 864000000 - 6 * 86400000, online := false } :
        Device) ∈
      [({ id := "me", name := "old", lastSeen := 864000000 - 6 * 86400000, online := false } :
        Device)] ∧
    ({ id := "me", name := "old", lastSeen := 864000000 - 6 * 86400000, online := false } :
        Device) ∉
      (updateDevicesList
        [{ id := "me", name := "old", lastSeen := 864000000 - 6 * 86400000, online := false }]
        "me" "fresh" true 864000000 86400000).2 := by
  decide

/-- C8 (amended): with a positive day length, no record of the upsert's output
has `lastSeen` equal to now−8days, and every input device other than the
syncing device itself whose `lastSeen` is exactly now−6days is present in the
output. -/
theorem updateDevicesList_pruning (devices : List Device) (selfId selfName : String)
    (online : Bool) (now dayMs : Int) (hday : 0 < dayMs) :
    (∀ d ∈ (updateDevicesList devices selfId selfName online now dayMs).2,
        d.lastSeen ≠ now - 8 * dayMs) ∧
    (∀ d ∈ devices, d.id ≠ selfId → d.lastSeen = now - 6 * dayMs →
        d ∈ (updateDevicesList devices selfId selfName online now dayMs).2) := by
  have h2 : (updateDevicesList devices selfId selfName online now dayMs).2 =
      (if devices.any (fun d => d.id == selfId)
        then replaceFirst { id := selfId, name := selfName, lastSeen := now, online := online }
          devices
        else devices ++
          [{ id := selfId, name := selfName, lastSeen := now, online := online }]).filter
        (fun d => now - 7 * dayMs < d.lastSeen) := rfl
  rw [h2]
  constructor
  · intro d hd
    have hlt : now - 7 * dayMs < d.lastSeen := by
      have hf := (List.mem_filter.mp hd).2
      simpa using hf
    intro hc
    rw [hc] at hlt
    omega
  · intro d hd hid hseen
    refine List.mem_filter.mpr ⟨?_, ?_⟩
    · by_cases hany : devices.any (fun d => d.id == selfId) = true
      · rw [if_pos hany]
        exact mem_replaceFirst_of_ne hd hid
      · rw [if_neg hany]
        exact List.mem_append_left _ hd
    · simp only [decide_eq_true_eq]
      rw [hseen]
      omega

/-- Witness for C8's amended theorem at a concrete registry. -/
theorem updateDevicesList_pruning_witness :
    (∀ d ∈ (updateDevicesList
        [{ id := "other", name := "o", lastSeen := 864000000 - 6 * 86400000, online := false }]
        "me" "fresh" true 864000000 86400000).2,
        d.lastSeen ≠ 864000000 - 8 * 86400000) ∧
    (∀ d ∈ [({ id := "other", name := "o", lastSeen := 864000000 - 6 * 86400000,
               online := false } : Device)],
        d.id ≠ "me" → d.lastSeen = 864000000 - 6 * 86400000 →
        d ∈ (updateDevicesList
          [{ id := "other", name := "o", lastSeen := 864000000 - 6 * 86400000, online := false }]
          "me" "fresh" true 864000000 86400000).2) := by
  exact updateDevicesList_pruning
    [{ id := "other", name := "o", lastSeen := 864000000 - 6 * 86400000, online := false }]
    "me" "fresh" true 864000000 86400000 (by decide)

/-- C9: a manual sync triggered while `isSyncing` is true performs zero remote
reads and zero remote writes, leaves the whole session state (hence the local
store) untouched, and logs exactly one line, a warning. -/
theorem manualSync_mutual_exclusion (st : SyncState) (remoteData : Option RemoteDoc)
    (writeSuccess : Bool) (selfId selfName : String) (now dayMs : Int)
    (h : st.isSyncing = true) :
    (manualSync st remoteData writeSuccess selfId selfName now dayMs).1 = st ∧
      (manualSync st remoteData writeSuccess selfId selfName now dayMs).2.remoteReads = 0 ∧
      (manualSync st remoteData writeSuccess selfId selfName now dayMs).2.remoteWrites = 0 ∧
      (manualSync st remoteData writeSuccess selfId selfName now dayMs).2.log.length = 1 ∧
      ((manualSync st remoteData writeSuccess selfId selfName now dayMs).2.log.filter
          (fun e => e.severity == "warning")).length = 1 := by
  unfold manualSync
  rw [if_pos h]
  exact ⟨rfl, rfl, rfl, rfl, rfl⟩

/-- Witness for C9 at a concrete in-flight session state. -/
theorem manualSync_mutual_exclusion_witness :
    let st : SyncState := { tasks := [], lastSync := none, isSyncing := true,
                            isOnline := true, configured := true }
    (manualSync st none false "d" "n" 0 86400000).1 = st ∧
      (manualSync st none false "d" "n" 0 86400000).2.remoteReads = 0 ∧
      (manualSync st none false "d" "n" 0 86400000).2.remoteWrites = 0 ∧
      (manualSync st none false "d" "n" 0 86400000).2.log.length = 1 ∧
      ((manualSync st none false "d" "n" 0 86400000).2.log.filter
          (fun e => e.severity == "warning")).length = 1 := by
  intro st
  exact manualSync_mutual_exclusion st none false "d" "n" 0 86400000 rfl

/-- C10: in conflict resolution a missing `updatedAt` is treated as the epoch
(0): a record with any positive timestamp beats a record with no `updatedAt`
(on either side), and when both records lack `updatedAt` the local record is
returned. -/
theorem resolveConflict_missing_updatedAt
    (l1 r1 l2 r2 l3 r3 : Task) (t u : Nat) (ht : 0 < t) (hu : 0 < u)
    (h1l : l1.updatedAt = some t) (h1r : r1.updatedAt = none)
    (h2l : l2.updatedAt = none) (h2r : r2.updatedAt = some u)
    (h3l : l3.updatedAt = none) (h3r : r3.updatedAt = none) :
    resolveConflict l1 r1 = l1 ∧ resolveConflict l2 r2 = r2 ∧
      resolveConflict l3 r3 = l3 := by
  unfold resolveConflict timeOf
  rw [h1l, h1r, h2l, h2r, h3l, h3r]
  simp only [Option.getD_some, Option.getD_none]
  refine ⟨?_, ?_, ?_⟩
  · rw [if_pos ht]
  · rw [if_neg (by omega), if_pos hu]
  · rw [if_neg (by omega), if_neg (by omega)]

/-- Witness for C10 at concrete records: timestamp 5 beats missing, missing
loses to 7, and two missing timestamps return the local record. -/
theorem resolveConflict_missing_updatedAt_witness :
    let a1 : Task := { id := 1, title := "a1", completed := false, deleted := false,
                       updatedAt := some 5, synced := false }
    let b1 : Task := { id := 1, title := "b1", completed := false, deleted := false,
                       updatedAt := none, synced := false }
    let a2 : Task := { id := 2, title := "a2", completed := false, deleted := false,
                       updatedAt := none, synced := false }
    let b2 : Task := { id := 2, title := "b2", completed := false, deleted := false,
                       updatedAt := some 7, synced := false }
    let a3 : Task := { id := 3, title := "a3", completed := false, deleted := false,
                       updatedAt := none, synced := false }
    let b3 : Task := { id := 3, title := "b3", completed := false, deleted := false,
                       updatedAt := none, synced := false }
    resolveConflict a1 b1 = a1 ∧ resolveConflict a2 b2 = b2 ∧ resolveConflict a3 b3 = a3 := by
  intro a1 b1 a2 b2 a3 b3
  exact resolveConflict_missing_updatedAt a1 b1 a2 b2 a3 b3 5 7 (by decide) (by decide)
    rfl rfl rfl rfl rfl rfl

end SyncSpec
